import Mathlib

/-!
Shallow embedding of the bundler core (`src/main.rs`).

The Rust program builds a bundle graph from an asset graph in five steps:
root selection via a stateful DFS, per-root reachability, bundle placement,
minimum-size inlining, and a parallel-request enforcer.  The embedding below
mirrors the program over `petgraph`-style graphs:

* node handles are list positions (`Nat`);
* `neighbors`/`edges` iterate outgoing (resp. incoming) edges most-recent
  first, as `petgraph::Graph` adjacency lists do;
* `remove_node` removes all incident edges and then swap-removes the node,
  relabelling the index of the last node, as `Graph::remove_node` does;
* `find_edge` returns the most recently inserted matching edge;
* every operation that can panic in Rust (indexing a missing node, an
  absent `HashMap` key, `Option::unwrap`) is modelled in the `Option` monad;
* the iteration order of `std::collections::HashMap` / `HashSet` is
  unspecified, so the two places where the program iterates a hash container
  (`bundle_roots` in steps 2 and 5, and `reachable_nodes` when building
  `reachable_graph` via `Graph::from_edges`) are parameterised by reordering
  functions `tau2`, `sigma`, `tau5`; a real execution of the program
  corresponds to some choice of these functions that permute their input.
-/

namespace Bundler

/-- Asset type tags (`enum AssetType`). -/
inductive AssetType where
  | javaScript
  | css
  | html
deriving DecidableEq, Repr

/-- `struct Asset` (the `name` field is only ever printed and is omitted). -/
structure Asset where
  asset_type : AssetType
  size : Nat
deriving DecidableEq, Repr

/-- An asset-graph edge with its `Dependency { is_async }` weight. -/
structure AEdge where
  src : Nat
  tgt : Nat
  is_async : Bool
deriving DecidableEq, Repr

/-- The asset graph: `Graph<Asset, Dependency>`.  Node handles are list
positions; the edge list is kept in insertion order. -/
structure AGraph where
  nodes : List Asset
  edges : List AEdge
deriving DecidableEq, Repr

/-- Outgoing edges of `u`, iterated most-recent-first as `petgraph` does. -/
def AGraph.outEdges (g : AGraph) (u : Nat) : List AEdge :=
  (g.edges.filter (fun e => e.src == u)).reverse

/-- `Graph::find_edge(u, v)`: the first matching edge in the adjacency of `u`
list, i.e. the most recently inserted `(u, v)` edge. -/
def AGraph.findEdge (g : AGraph) (u v : Nat) : Option AEdge :=
  (g.outEdges u).find? (fun e => e.tgt == v)

/-- `struct Bundle`. -/
structure Bundle where
  asset_ids : List Nat
  size : Nat
  source_bundles : List Nat
deriving DecidableEq, Repr

/-- `Bundle::default()`. -/
def Bundle.default : Bundle := ⟨[], 0, []⟩

/-- `Bundle::from_asset`. -/
def Bundle.from_asset (asset_id : Nat) (a : Asset) : Bundle :=
  ⟨[asset_id], a.size, []⟩

/-- The bundle graph: `Graph<Bundle, i32>` (all edge weights are `0` and are
dropped).  Edges are kept in insertion order; parallel edges are allowed,
exactly as in `petgraph`. -/
structure BGraph where
  nodes : List Bundle
  edges : List (Nat × Nat)
deriving DecidableEq, Repr

/-- `Graph::add_node`: returns the fresh index and the extended graph. -/
def BGraph.addNode (bg : BGraph) (b : Bundle) : Nat × BGraph :=
  (bg.nodes.length, ⟨bg.nodes ++ [b], bg.edges⟩)

/-- `Graph::add_edge`: panics when an endpoint is out of bounds; always adds
a new edge (parallel edges are not coalesced). -/
def BGraph.addEdge (bg : BGraph) (s t : Nat) : Option BGraph :=
  if s < bg.nodes.length ∧ t < bg.nodes.length then
    some ⟨bg.nodes, bg.edges ++ [(s, t)]⟩
  else none

/-- Node weight access (`&bundle_graph[i]`), `none` models the Rust panic. -/
def BGraph.getNode (bg : BGraph) (i : Nat) : Option Bundle :=
  bg.nodes.get? i

/-- Overwrite the node weight at `i` (mutation through `&mut bundle_graph[i]`). -/
def BGraph.setNode (bg : BGraph) (i : Nat) (b : Bundle) : BGraph :=
  ⟨bg.nodes.set i b, bg.edges⟩

/-- `Graph::neighbors(u)` (outgoing), most-recent-first. -/
def BGraph.neighbors (bg : BGraph) (u : Nat) : List Nat :=
  ((bg.edges.filter (fun e => e.1 == u)).map (fun e => e.2)).reverse

/-- `Graph::neighbors_directed(v, Incoming)`, most-recent-first. -/
def BGraph.incoming (bg : BGraph) (v : Nat) : List Nat :=
  ((bg.edges.filter (fun e => e.2 == v)).map (fun e => e.1)).reverse

/-- Number of outgoing edges of `u` (with multiplicity). -/
def BGraph.outDegree (bg : BGraph) (u : Nat) : Nat :=
  (bg.edges.filter (fun e => e.1 == u)).length

/-- `remove_edge(find_edge(s, t).unwrap())`: removes the most recently
inserted `(s, t)` edge, `none` when no such edge exists.  The `petgraph`
edge swap-removal renumbers edge indices but preserves each adjacency
relative order of each list, which the in-place list removal reproduces. -/
def BGraph.removeLastEdge (bg : BGraph) (s t : Nat) : Option BGraph :=
  if (s, t) ∈ bg.edges then
    some ⟨bg.nodes, (bg.edges.reverse.erase (s, t)).reverse⟩
  else none

/-- `Graph::remove_node(i)`: removes all incident edges, swap-removes the
node (the last node takes index `i`) and relabels the edges of the moved node. -/
def BGraph.removeNode (bg : BGraph) (i : Nat) : Option (Bundle × BGraph) :=
  match bg.nodes.get? i with
  | none => none
  | some b =>
    let last := bg.nodes.length - 1
    let keep := bg.edges.filter (fun e => !(e.1 == i) && !(e.2 == i))
    let relab := keep.map (fun e =>
      (if e.1 = last then i else e.1, if e.2 = last then i else e.2))
    some (b, ⟨(bg.nodes.set i (bg.nodes.getLast?.getD b)).dropLast, relab⟩)

/-- DFS events of `petgraph::visit::depth_first_search`. -/
inductive DfsEvent where
  | discover (n : Nat)
  | treeEdge (u v : Nat)
  | backEdge (u v : Nat)
  | crossForwardEdge (u v : Nat)
  | finish (n : Nat)
deriving DecidableEq, Repr

/-- Visitor control flow: `Control::Continue` / `Control::Prune` (the two
programs never return `Control::Break`). -/
inductive DfsControl where
  | cont
  | prune
deriving DecidableEq, Repr

/-- DFS bookkeeping: visitor state plus the discovered / finished maps. -/
structure DfsState (σ : Type) where
  vis : σ
  discovered : List Nat
  finished : List Nat

/-- Emit `Finish(u)` after marking `u` finished. -/
def dfsFinish (f : σ → DfsEvent → σ × DfsControl) (u : Nat) (s : DfsState σ) :
    DfsState σ :=
  let s := { s with finished := u :: s.finished }
  let (w, _) := f s.vis (.finish u)
  { s with vis := w }

/-- The edge loop of `dfs_visitor`, parameterised by the recursive visit
`rec` used on undiscovered tree-edge targets. -/
def dfsEdges (f : σ → DfsEvent → σ × DfsControl)
    (rec : Nat → DfsState σ → DfsState σ) (u : Nat) :
    List AEdge → DfsState σ → DfsState σ
  | [], s => s
  | e :: rest, s =>
    let v := e.tgt
    let s :=
      if v ∈ s.discovered then
        if v ∈ s.finished then
          let (w, _) := f s.vis (.crossForwardEdge u v)
          { s with vis := w }
        else
          let (w, _) := f s.vis (.backEdge u v)
          { s with vis := w }
      else
        match f s.vis (.treeEdge u v) with
        | (w, .prune) => { s with vis := w }
        | (w, .cont) => rec v { s with vis := w }
    dfsEdges f rec u rest s

/-- `dfs_visitor`: discover `u`, walk its outgoing edges (most-recent-first),
then finish `u`.  `Prune` on `Discover` skips the edges but still finishes;
`Prune` on `TreeEdge` skips the recursive visit.  The fuel argument only
bounds the recursion depth; callers pass enough fuel for it never to run
out on the graph at hand. -/
def dfsNode (g : AGraph) (f : σ → DfsEvent → σ × DfsControl) :
    Nat → Nat → DfsState σ → DfsState σ
  | 0, _, s => s
  | fuel + 1, u, s =>
    if u ∈ s.discovered then s
    else
      let s := { s with discovered := u :: s.discovered }
      match f s.vis (.discover u) with
      | (w, .prune) => dfsFinish f u { s with vis := w }
      | (w, .cont) =>
        dfsFinish f u
          (dfsEdges f (dfsNode g f fuel) u (g.outEdges u) { s with vis := w })

/-- Fuel that always suffices: nested visits are bounded by the number of
distinct discoverable handles. -/
def dfsFuel (g : AGraph) : Nat :=
  g.nodes.length + g.edges.length + 1

/-- `depth_first_search(&g, starts, visitor)`. -/
def depthFirstSearch (g : AGraph) (starts : List Nat)
    (f : σ → DfsEvent → σ × DfsControl) (init : σ) : σ :=
  (starts.foldl (fun s u => dfsNode g f (dfsFuel g) u s) ⟨init, [], []⟩).vis

/-- Insert into a `HashSet` modelled as a duplicate-free list. -/
def setInsert (l : List (Nat × Nat)) (x : Nat × Nat) : List (Nat × Nat) :=
  if x ∈ l then l else l ++ [x]

/-- `bundle_roots.get(&k)`: the `(bundle_id, bundle_group_id)` pair. -/
def rootsLookup (m : List (Nat × Nat × Nat)) (k : Nat) : Option (Nat × Nat) :=
  (m.find? (fun p => p.1 == k)).map (fun p => p.2)

/-- `bundle_roots.insert(k, v)`: overwrite in place or append. -/
def rootsInsert : List (Nat × Nat × Nat) → Nat → (Nat × Nat) →
    List (Nat × Nat × Nat)
  | [], k, v => [(k, v)]
  | p :: rest, k, v =>
    if p.1 = k then (k, v) :: rest else p :: rootsInsert rest k v

/-- State threaded through step 1 (root selection). -/
structure S1 where
  bundle_roots : List (Nat × Nat × Nat)
  reachable_bundles : List (Nat × Nat)
  bundle_graph : BGraph
  stack : List (Nat × Nat)
deriving DecidableEq, Repr

/-- The stack walk of the async branch: record `(b, v)` for every stack entry of
the asset type of `v`, stopping at the first entry of a different type. -/
def walkStack (g : AGraph) (t : AssetType) (v : Nat) :
    List (Nat × Nat) → List (Nat × Nat) → Option (List (Nat × Nat))
  | [], rb => some rb
  | (b, _) :: rest, rb => do
    let a ← g.nodes.get? b
    if a.asset_type ≠ t then some rb
    else walkStack g t v rest (setInsert rb (b, v))

/-- The `DfsEvent::TreeEdge(u, v)` handler of step 1. -/
def step1TreeEdge (g : AGraph) (st : S1) (u v : Nat) : Option S1 := do
  let asset_a ← g.nodes.get? u
  let asset_b ← g.nodes.get? v
  if asset_a.asset_type ≠ asset_b.asset_type then
    match st.stack with
    | [] => none
    | (_, bundle_group_id) :: _ =>
      let (bundle_id, bg) := st.bundle_graph.addNode (Bundle.from_asset v asset_b)
      let bg ← bg.addEdge bundle_group_id bundle_id
      some { st with
        bundle_graph := bg,
        bundle_roots := rootsInsert st.bundle_roots v (bundle_id, bundle_group_id) }
  else do
    let dep ← g.findEdge u v
    if dep.is_async then
      let (bundle_id, bg) := st.bundle_graph.addNode (Bundle.from_asset v asset_b)
      let rb ← walkStack g asset_b.asset_type v st.stack st.reachable_bundles
      some { st with
        bundle_graph := bg,
        bundle_roots := rootsInsert st.bundle_roots v (bundle_id, bundle_id),
        reachable_bundles := rb }
    else
      some st

/-- The step-1 visitor (the closure passed to `depth_first_search`). -/
def step1Visit (g : AGraph) (st? : Option S1) (ev : DfsEvent) :
    Option S1 × DfsControl :=
  match st? with
  | none => (none, .cont)
  | some st =>
    match ev with
    | .discover a =>
      match rootsLookup st.bundle_roots a with
      | some (_, gid) => (some { st with stack := (a, gid) :: st.stack }, .cont)
      | none => (some st, .cont)
    | .treeEdge u v => (step1TreeEdge g st u v, .cont)
    | .finish n =>
      match st.stack with
      | (s, _) :: rest =>
        if s = n then (some { st with stack := rest }, .cont) else (some st, .cont)
      | [] => (some st, .cont)
    | _ => (some st, .cont)

/-- The entry loop preceding the DFS: one fresh bundle per entry. -/
def initEntries (g : AGraph) : List Nat → S1 → Option S1
  | [], st => some st
  | e :: rest, st => do
    let a ← g.nodes.get? e
    let (bid, bg) := st.bundle_graph.addNode (Bundle.from_asset e a)
    initEntries g rest { st with
      bundle_graph := bg,
      bundle_roots := rootsInsert st.bundle_roots e (bid, bid) }

/-- Step 1: create bundles at the explicit split points. -/
def stage1 (g : AGraph) (entries : List Nat) : Option S1 := do
  let st ← initEntries g entries ⟨[], [], ⟨[], []⟩, []⟩
  depthFirstSearch g entries (step1Visit g) (some st)

/-- The step-2 visitor: record `(root, n)` for non-root `n`, prune at other
roots. -/
def step2Visit (roots : List (Nat × Nat × Nat)) (root : Nat)
    (acc : List (Nat × Nat)) (ev : DfsEvent) : List (Nat × Nat) × DfsControl :=
  match ev with
  | .discover n =>
    if n = root then (acc, .cont)
    else if (rootsLookup roots n).isSome then (acc, .prune)
    else (setInsert acc (root, n), .cont)
  | _ => (acc, .cont)

/-- Step 2: per-root reachability (`reachable_nodes`); the roots are
iterated in the `HashMap` order `tau2`. -/
def stage2 (g : AGraph) (roots : List (Nat × Nat × Nat))
    (tau2 : List (Nat × Nat × Nat) → List (Nat × Nat × Nat)) :
    List (Nat × Nat) :=
  (tau2 roots).foldl
    (fun acc p => depthFirstSearch g [p.1] (step2Visit roots p.1) acc) []

/-- `reachable_graph.neighbors_directed(a, Incoming)` where
`reachable_graph = Graph::from_edges(pairs)`: the sources of the pairs
targeting `a`, most-recent-first. -/
def reachableIncoming (pairs : List (Nat × Nat)) (a : Nat) : List Nat :=
  ((pairs.filter (fun p => p.2 == a)).map (fun p => p.1)).reverse

/-- `bundles.get(&k)` for the `Vec<NodeIndex> → NodeIndex` map. -/
def bundlesLookup (m : List (List Nat × Nat)) (k : List Nat) : Option Nat :=
  (m.find? (fun p => p.1 == k)).map (fun p => p.2)

/-- `bundles.insert(k, v)` (overwrite in place or append). -/
def bundlesInsert : List (List Nat × Nat) → List Nat → Nat →
    List (List Nat × Nat)
  | [], k, v => [(k, v)]
  | p :: rest, k, v =>
    if p.1 = k then (k, v) :: rest else p :: bundlesInsert rest k v

/-- `bundles.entry(k).or_insert(v)`. -/
def bundlesInsertIfAbsent (m : List (List Nat × Nat)) (k : List Nat) (v : Nat) :
    List (List Nat × Nat) :=
  if (m.find? (fun p => p.1 == k)).isSome then m else m ++ [(k, v)]

/-- State threaded through step 3 (bundle placement). -/
structure S3 where
  bundles : List (List Nat × Nat)
  bundle_graph : BGraph
deriving DecidableEq, Repr

/-- The surviving reachable-root list of an asset: incoming neighbours in
the reachability graph, minus roots dominated via `reachable_bundles`. -/
def survivingReachable (rb : List (Nat × Nat)) (pairs : List (Nat × Nat))
    (asset_id : Nat) : List Nat :=
  let reachable := reachableIncoming pairs asset_id
  reachable.filter (fun b => reachable.all (fun a => !(rb.contains (a, b))))

/-- The edge loop of the root branch: for each other reachable root `a`, add an
edge from the bundle group of `a` to the bundle of this root. -/
def step3RootEdges (roots : List (Nat × Nat × Nat)) (reachable : List Nat)
    (asset_id bundle_id : Nat) (st : S3) : Option S3 :=
  reachable.foldlM (fun st a =>
    if a ≠ asset_id then do
      let (_, gid) ← rootsLookup roots a
      let bg ← st.bundle_graph.addEdge gid bundle_id
      some { st with bundle_graph := bg }
    else
      some st) st

/-- The edge loop of the shared branch: add the bundle to each reachable
bundle group (the guard compares the asset id of the reachable root with
the node id of the bundle, exactly as the source does). -/
def step3SharedEdges (roots : List (Nat × Nat × Nat)) (reachable : List Nat)
    (bundle_id : Nat) (st : S3) : Option S3 :=
  reachable.foldlM (fun st a =>
    if a ≠ bundle_id then do
      let (_, gid) ← rootsLookup roots a
      let bg ← st.bundle_graph.addEdge gid bundle_id
      some { st with bundle_graph := bg }
    else
      some st) st

/-- The step-3 loop body for one asset. -/
def step3Asset (g : AGraph) (roots : List (Nat × Nat × Nat))
    (rb : List (Nat × Nat)) (pairs : List (Nat × Nat)) (st : S3)
    (asset_id : Nat) : Option S3 :=
  let reachable := survivingReachable rb pairs asset_id
  match rootsLookup roots asset_id with
  | some (bundle_id, _) =>
    let st := { st with bundles := bundlesInsertIfAbsent st.bundles [asset_id] bundle_id }
    step3RootEdges roots reachable asset_id bundle_id st
  | none =>
    if reachable.length > 0 then do
      let source_bundles ← reachable.mapM (fun a => bundlesLookup st.bundles [a])
      let (bundle_id, st) :=
        match bundlesLookup st.bundles reachable with
        | some b => (b, st)
        | none =>
          let (nid, bg) := st.bundle_graph.addNode
            { Bundle.default with source_bundles := source_bundles }
          (nid, ⟨bundlesInsert st.bundles reachable nid, bg⟩)
      do
      let b ← st.bundle_graph.getNode bundle_id
      let a ← g.nodes.get? asset_id
      let bg := st.bundle_graph.setNode bundle_id
        { b with asset_ids := b.asset_ids ++ [asset_id], size := b.size + a.size }
      step3SharedEdges roots reachable bundle_id { st with bundle_graph := bg }
    else
      some st

/-- Step 3: place every asset (in node-insertion order) into a bundle. -/
def stage3 (g : AGraph) (roots : List (Nat × Nat × Nat))
    (rb : List (Nat × Nat)) (pairs : List (Nat × Nat)) (bg : BGraph) :
    Option S3 :=
  (List.range g.nodes.length).foldlM (step3Asset g roots rb pairs) ⟨[], bg⟩

/-- The minimum-size threshold (hard-coded `10` in the source). -/
def min_bundle_size : Nat := 10

/-- `remove_bundle`: swap-remove the node, then append each of its assets
to every one of its source bundles. -/
def remove_bundle (g : AGraph) (bg : BGraph) (bundle_id : Nat) :
    Option BGraph := do
  let (bundle, bg) ← bg.removeNode bundle_id
  bundle.asset_ids.foldlM (fun bg asset_id =>
    bundle.source_bundles.foldlM (fun bg source_id => do
      let b ← bg.getNode source_id
      let a ← g.nodes.get? asset_id
      some (bg.setNode source_id
        { b with asset_ids := b.asset_ids ++ [asset_id], size := b.size + a.size })) bg) bg

/-- The step-4 loop body for one node index. -/
def step4Bundle (g : AGraph) (bg : BGraph) (i : Nat) : Option BGraph := do
  let bundle ← bg.getNode i
  if bundle.source_bundles.length > 0 ∧ bundle.size < min_bundle_size then
    remove_bundle g bg i
  else
    some bg

/-- Step 4: inline undersized shared bundles.  The index range is fixed to
the node count at loop entry (`node_indices()`), while nodes may be
removed underneath it — indexing a vanished slot is the Rust panic. -/
def stage4 (g : AGraph) (bg : BGraph) : Option BGraph :=
  (List.range bg.nodes.length).foldlM (step4Bundle g) bg

/-- The parallel-request limit (hard-coded `3` in the source). -/
def parallel_request_limit : Nat := 3

/-- Size of the bundle at index `i`, used by the step-5 sort comparator
(all compared indices denote live nodes). -/
def bundleSizeAt (bg : BGraph) (i : Nat) : Nat :=
  ((bg.getNode i).map Bundle.size).getD 0

/-- Stable insertion of an index into a size-sorted list. -/
def insertBySize (bg : BGraph) (x : Nat) : List Nat → List Nat
  | [] => [x]
  | y :: ys =>
    if bundleSizeAt bg x ≤ bundleSizeAt bg y then x :: y :: ys
    else y :: insertBySize bg x ys

/-- `neighbors.sort_by(size)` — the Rust `sort_by` is stable, and a stable
sort by a total key is unique, so stable insertion sort reproduces it. -/
def stableSortBySize (bg : BGraph) : List Nat → List Nat
  | [] => []
  | x :: xs => insertBySize bg x (stableSortBySize bg xs)

/-- One removal iteration of step 5: drain the sources of `bundle_id` that
lie in the neighbour list of this group, copy the drained assets into
`bundles[{source}]`, delete the group edge, then inline or drop the bundle
depending on its remaining incoming-edge count. -/
def step5Remove (g : AGraph) (bundles : List (List Nat × Nat))
    (bundle_group_id : Nat) (sorted : List Nat) (bg : BGraph)
    (bundle_id : Nat) : Option BGraph := do
  let sB ← bg.getNode bundle_id
  let drained := sB.source_bundles.filter (fun s => sorted.contains s)
  let kept := sB.source_bundles.filter (fun s => !(sorted.contains s))
  let bg := bg.setNode bundle_id { sB with source_bundles := kept }
  let bg ← drained.foldlM (fun bg source => do
    let cur ← bg.getNode bundle_id
    cur.asset_ids.foldlM (fun bg asset_id => do
      let target ← bundlesLookup bundles [source]
      let b ← bg.getNode target
      let a ← g.nodes.get? asset_id
      some (bg.setNode target
        { b with asset_ids := b.asset_ids ++ [asset_id], size := b.size + a.size })) bg) bg
  let bg ← bg.removeLastEdge bundle_group_id bundle_id
  let count := (bg.incoming bundle_id).length
  if count = 1 then remove_bundle g bg bundle_id
  else if count = 0 then (bg.removeNode bundle_id).map (fun p => p.2)
  else some bg

/-- The step-5 loop body for one `bundle_roots` entry. -/
def step5Group (g : AGraph) (bundles : List (List Nat × Nat)) (bg : BGraph)
    (bundle_id bundle_group_id : Nat) : Option BGraph :=
  if bundle_id ≠ bundle_group_id then some bg
  else
    let neighbors := bg.neighbors bundle_group_id
    if neighbors.length > parallel_request_limit then
      let sorted := stableSortBySize bg neighbors
      (sorted.take (sorted.length - parallel_request_limit)).foldlM
        (step5Remove g bundles bundle_group_id sorted) bg
    else
      some bg

/-- Step 5: enforce the parallel-request limit per bundle group; the map is
iterated in the `HashMap` order `tau5`. -/
def stage5 (g : AGraph) (roots : List (Nat × Nat × Nat))
    (bundles : List (List Nat × Nat)) (bg : BGraph)
    (tau5 : List (Nat × Nat × Nat) → List (Nat × Nat × Nat)) :
    Option BGraph :=
  (tau5 roots).foldlM (fun bg p => step5Group g bundles bg p.2.1 p.2.2) bg

/-- The state after the bundle placer: step-1 output, the `reachable_nodes`
pair list (already in `from_edges` iteration order) and the step-3 output. -/
structure PipeMid where
  s1 : S1
  pairs : List (Nat × Nat)
  s3 : S3
deriving DecidableEq, Repr

/-- Steps 1–3 of the pipeline. -/
def runPlacer (g : AGraph) (entries : List Nat)
    (tau2 : List (Nat × Nat × Nat) → List (Nat × Nat × Nat))
    (sigma : List (Nat × Nat) → List (Nat × Nat)) :
    Option PipeMid := do
  let s1 ← stage1 g entries
  let pairs := sigma (stage2 g s1.bundle_roots tau2)
  let s3 ← stage3 g s1.bundle_roots s1.reachable_bundles pairs s1.bundle_graph
  some ⟨s1, pairs, s3⟩

/-- Steps 1–4 of the pipeline. -/
def runInliner (g : AGraph) (entries : List Nat)
    (tau2 : List (Nat × Nat × Nat) → List (Nat × Nat × Nat))
    (sigma : List (Nat × Nat) → List (Nat × Nat)) :
    Option BGraph := do
  let m ← runPlacer g entries tau2 sigma
  stage4 g m.s3.bundle_graph

/-- The whole pipeline (the body of `main` after `build_graph`), from asset
graph and entries to the final bundle graph. -/
def bundle (g : AGraph) (entries : List Nat)
    (tau2 : List (Nat × Nat × Nat) → List (Nat × Nat × Nat))
    (sigma : List (Nat × Nat) → List (Nat × Nat))
    (tau5 : List (Nat × Nat × Nat) → List (Nat × Nat × Nat)) :
    Option BGraph := do
  let m ← runPlacer g entries tau2 sigma
  let bg4 ← stage4 g m.s3.bundle_graph
  stage5 g m.s1.bundle_roots m.s3.bundles bg4 tau5

/-- How many times asset `x` occurs across the asset lists of all bundles. -/
def occCount (bg : BGraph) (x : Nat) : Nat :=
  (bg.nodes.map (fun b => b.asset_ids.count x)).sum

/-- Invariant of step 1: edge targets of the bundle graph are pairwise
distinct and in range — every step-1 edge targets its freshly created
bundle, so no (source, target) pair repeats. -/
def EdgeTargetsOk (st : S1) : Prop :=
  (st.bundle_graph.edges.map Prod.snd).Nodup ∧
  ∀ e ∈ st.bundle_graph.edges, e.2 < st.bundle_graph.nodes.length

/-- Invariant of step 1: every registered bundle root already occurs in at
least one bundle, and assets that are not registered roots occur in none. -/
def RootOccOk (st : S1) : Prop :=
  (∀ a p, rootsLookup st.bundle_roots a = some p →
    1 ≤ occCount st.bundle_graph a) ∧
  (∀ a, rootsLookup st.bundle_roots a = none →
    occCount st.bundle_graph a = 0)

/-!
### Concrete input graphs

Small asset graphs used as concrete inputs for the claims.  Asset handles
are list positions, exactly as `Graph::add_node` hands them out, and the
`entries` arguments below always denote nodes present in the graph.
-/

/-- A JavaScript entry (asset 0, size 10) with four CSS children: asset 1
of size 1 and assets 2, 3, 4 of size 10. -/
def exC1 : AGraph :=
  { nodes := [⟨.javaScript, 10⟩, ⟨.css, 1⟩, ⟨.css, 10⟩, ⟨.css, 10⟩, ⟨.css, 10⟩],
    edges := [⟨0, 1, false⟩, ⟨0, 2, false⟩, ⟨0, 3, false⟩, ⟨0, 4, false⟩] }

/-- An entry (asset 0) plus an isolated asset 1. -/
def exC2 : AGraph :=
  { nodes := [⟨.javaScript, 10⟩, ⟨.javaScript, 10⟩], edges := [] }

/-- A single entry (asset 0) with one async dependency on asset 1 of the
same type. -/
def exC4 : AGraph :=
  { nodes := [⟨.javaScript, 10⟩, ⟨.javaScript, 10⟩],
    edges := [⟨0, 1, true⟩] }

/-- Two entries 0 and 1 sharing one downstream asset 2 of size 5
(below `min_bundle_size`). -/
def exC6 : AGraph :=
  { nodes := [⟨.javaScript, 10⟩, ⟨.javaScript, 10⟩, ⟨.javaScript, 5⟩],
    edges := [⟨0, 2, false⟩, ⟨1, 2, false⟩] }

/-- Two entries 0 and 1 both depending on the shared assets 2 and 3
(all sizes 10, so nothing is inlined). -/
def exC7 : AGraph :=
  { nodes := [⟨.javaScript, 10⟩, ⟨.javaScript, 10⟩, ⟨.javaScript, 10⟩, ⟨.javaScript, 10⟩],
    edges := [⟨0, 2, false⟩, ⟨0, 3, false⟩, ⟨1, 2, false⟩, ⟨1, 3, false⟩] }

/-- A non-root asset (0) that precedes its only root (the entry, asset 1)
in node-insertion order. -/
def exC8 : AGraph :=
  { nodes := [⟨.javaScript, 10⟩, ⟨.javaScript, 10⟩],
    edges := [⟨1, 0, false⟩] }

/-- Three entries 0, 1, 2 and two undersized shared assets: asset 3 shared
by entries 0 and 1, asset 4 shared by entries 0 and 2 (both of size 1), so
step 4 removes two shared bundles. -/
def exC8b : AGraph :=
  { nodes := [⟨.javaScript, 10⟩, ⟨.javaScript, 10⟩, ⟨.javaScript, 10⟩,
              ⟨.javaScript, 1⟩, ⟨.javaScript, 1⟩],
    edges := [⟨0, 3, false⟩, ⟨1, 3, false⟩, ⟨0, 4, false⟩, ⟨2, 4, false⟩] }

/-- Asset 0 is an unreached filler, asset 1 is the entry (JS, size 1) with
CSS children 2, 3, 4 (size 10), a same-type child 5 (size 1), and an async
child 6 (size 1) whose own subtree holds assets 7–10 (size 10).  The async
edge is inserted first so that the DFS reaches asset 6 last. -/
def exC3 : AGraph :=
  { nodes := [⟨.javaScript, 10⟩, ⟨.javaScript, 1⟩, ⟨.css, 10⟩, ⟨.css, 10⟩,
              ⟨.css, 10⟩, ⟨.javaScript, 1⟩, ⟨.javaScript, 1⟩,
              ⟨.javaScript, 10⟩, ⟨.javaScript, 10⟩, ⟨.javaScript, 10⟩, ⟨.javaScript, 10⟩],
    edges := [⟨1, 6, true⟩, ⟨1, 2, false⟩, ⟨1, 3, false⟩, ⟨1, 4, false⟩,
              ⟨1, 5, false⟩, ⟨6, 7, false⟩, ⟨6, 8, false⟩, ⟨6, 9, false⟩,
              ⟨6, 10, false⟩] }

/-- An alternative `HashSet` iteration order for `reachable_nodes`: on
four-element lists, keep the head and reverse the tail. -/
def sigmaB : List (Nat × Nat) → List (Nat × Nat)
  | [a, b, c, d] => [a, d, c, b]
  | l => l

/-!
### Claim theorems
-/

/-- C1.  The coverage claim fails on the code: on `exC1` the asset 1 is a
direct dependency of the entry 0 and still lives in a bundle after the
minimum-size inliner (§4.4), but the parallel-request enforcer (§4.5)
deletes the smallest type-change bundle outright (its incoming-edge count
drops to zero and the orphan branch removes the node without inlining its
assets anywhere), so after §4.5 asset 1 appears in no bundle at all. -/
theorem c1_enforcer_drops_covered_asset :
    (⟨0, 1, false⟩ ∈ exC1.edges) ∧
    (runInliner exC1 [0] id id).map (fun bg => occCount bg 1) = some 1 ∧
    (bundle exC1 [0] id id id).map (fun bg => occCount bg 1) = some 0 := by
  refine ⟨by decide, by decide, by decide⟩

/-- C2 counterexample.  On `exC2` the isolated asset 1 belongs to the input
asset graph but appears in zero bundles (not exactly one) immediately after
the bundle placer (§4.3). -/
theorem c2_counterexample :
    1 < exC2.nodes.length ∧
    (runPlacer exC2 [0] id id).map (fun m => occCount m.s3.bundle_graph 1) =
      some 0 := by
  refine ⟨by decide, by decide⟩

/-- C3.  The fan-out ceiling fails on the code: on `exC3` the entry asset 1
is a bundle-group entry with `bundle_id = bundle_group_id = 0`, yet after
the parallel-request enforcer completes, node index 0 of the final bundle
graph has out-degree 4 > `parallel_request_limit`.  The mistaken placer
`a != bundle_id` guard (an asset id compared with a bundle id) creates
self-loop edges at group entries; §4.5 then orphan-removes the very bundle
of the entry, and the swap-relabelling of `remove_node` moves the four
self-loops of the async group onto index 0, where no later iteration ever reduces them. -/
theorem c3_fan_out_ceiling_violated :
    (stage1 exC3 [1]).map S1.bundle_roots =
      some [(1, 0, 0), (4, 1, 0), (3, 2, 0), (2, 3, 0), (6, 4, 4)] ∧
    (bundle exC3 [1] id id id).map (fun bg => bg.outDegree 0) =
      some (parallel_request_limit + 1) := by
  refine ⟨by decide, by decide⟩

/-- C4 counterexample.  On `exC4` (one entry, one async edge, equal types)
the output has the two claimed bundles, but neither bundle has any
out-neighbor: the bundle created for the async target is *not* an
out-neighbor of the entry bundle (no step ever adds an edge into an
async bundle group). -/
theorem c4_counterexample :
    (bundle exC4 [0] id id id).map
      (fun bg => (bg.nodes.length, bg.neighbors 0, bg.neighbors 1)) =
      some (2, [], []) := by
  decide

/-- C7 counterexample.  On `exC7` the bundle placer adds one edge per
placed asset and reachable root, so the ordered pair `(0, 2)` (the bundle
group of entry 0 → the shared bundle) carries two parallel edges both right
after §4.3 (a stable point) and in the final bundle graph. -/
theorem c7_counterexample :
    (runPlacer exC7 [0, 1] id id).map
      (fun m => m.s3.bundle_graph.edges.count (0, 2)) = some 2 ∧
    (bundle exC7 [0, 1] id id id).map (fun bg => bg.edges.count (0, 2)) =
      some 2 := by
  refine ⟨by decide, by decide⟩

/-- C8.  Totality fails on the code: on `exC8` (entry present in the graph)
the placer lookup of `bundles[{b}]` panics because the non-root asset 0
precedes its root in node-insertion order, and on `exC8b` the placer
succeeds but §4.4 panics: removing a shared bundle mid-iteration
swap-relabels the last node and the fixed `node_indices()` range then
indexes a vanished slot. -/
theorem c8_pipeline_panics :
    1 < exC8.nodes.length ∧
    bundle exC8 [1] id id id = none ∧
    2 < exC8b.nodes.length ∧
    (runPlacer exC8b [0, 1, 2] id id).isSome = true ∧
    bundle exC8b [0, 1, 2] id id id = none := by
  refine ⟨by decide, by decide, by decide, by decide, by decide⟩

/-- C9.  Placement determinism fails on the code: `sigmaB` is a legitimate
`HashSet` iteration order (it permutes every list), yet on `exC7` the run
with the identity order produces three bundles and the run with `sigmaB`
produces four — the two bundle graphs are not isomorphic under any
correspondence.  The output of the program depends on `std::collections`
hash-iteration order, which is not determined by the inputs. -/
theorem c9_hash_order_changes_output :
    (∀ l, (sigmaB l).Perm l) ∧
    (bundle exC7 [0, 1] id id id).map (fun bg => bg.nodes.length) = some 3 ∧
    (bundle exC7 [0, 1] id sigmaB id).map (fun bg => bg.nodes.length) =
      some 4 := by
  refine ⟨?_, by decide, by decide⟩
  intro l
  match l with
  | [a, b, c, d] =>
    show List.Perm [a, d, c, b] [a, b, c, d]
    exact List.Perm.cons a (by simpa using List.reverse_perm [b, c, d])
  | [] => exact List.Perm.refl _
  | [a] => exact List.Perm.refl _
  | [a, b] => exact List.Perm.refl _
  | [a, b, c] => exact List.Perm.refl _
  | a :: b :: c :: d :: e :: l => exact List.Perm.refl _

/-!
### Generic DFS preservation

A property of the visitor state that every visitor call preserves is
preserved by the whole depth-first search.
-/

theorem dfsFinish_vis {σ : Type} (f : σ → DfsEvent → σ × DfsControl)
    (P : σ → Prop) (hf : ∀ s e, P s → P (f s e).1) (u : Nat)
    (s : DfsState σ) (h : P s.vis) : P ((dfsFinish f u s).vis) := by
  have hP := hf s.vis (.finish u) h
  rcases hfe : f s.vis (DfsEvent.finish u) with ⟨w, c⟩
  rw [hfe] at hP
  simpa [dfsFinish, hfe] using hP

theorem dfsEdges_vis {σ : Type} (f : σ → DfsEvent → σ × DfsControl)
    (rec : Nat → DfsState σ → DfsState σ) (P : σ → Prop)
    (hf : ∀ s e, P s → P (f s e).1)
    (hrec : ∀ v s, P (DfsState.vis s) → P ((rec v s).vis)) (u : Nat) :
    ∀ (es : List AEdge) (s : DfsState σ), P s.vis →
      P ((dfsEdges f rec u es s).vis) := by
  intro es
  induction es with
  | nil => intro s h; simpa [dfsEdges] using h
  | cons e rest ih =>
    intro s h
    rw [dfsEdges]
    apply ih
    by_cases hd : e.tgt ∈ s.discovered
    · by_cases hfin : e.tgt ∈ s.finished
      · have hP := hf s.vis (.crossForwardEdge u e.tgt) h
        rcases hfe : f s.vis (DfsEvent.crossForwardEdge u e.tgt) with ⟨w, c⟩
        rw [hfe] at hP
        simpa [hd, hfin, hfe] using hP
      · have hP := hf s.vis (.backEdge u e.tgt) h
        rcases hfe : f s.vis (DfsEvent.backEdge u e.tgt) with ⟨w, c⟩
        rw [hfe] at hP
        simpa [hd, hfin, hfe] using hP
    · have hP := hf s.vis (.treeEdge u e.tgt) h
      rcases hfe : f s.vis (DfsEvent.treeEdge u e.tgt) with ⟨w, c⟩
      rw [hfe] at hP
      cases c
      · simpa [hd, hfe] using hrec e.tgt { s with vis := w } hP
      · simpa [hd, hfe] using hP

theorem dfsNode_vis {σ : Type} (g : AGraph) (f : σ → DfsEvent → σ × DfsControl)
    (P : σ → Prop) (hf : ∀ s e, P s → P (f s e).1) :
    ∀ (fuel u : Nat) (s : DfsState σ), P s.vis →
      P ((dfsNode g f fuel u s).vis) := by
  intro fuel
  induction fuel with
  | zero => intro u s h; simpa [dfsNode] using h
  | succ n ih =>
    intro u s h
    rw [dfsNode]
    by_cases hd : u ∈ s.discovered
    · simpa [hd] using h
    · have hP := hf s.vis (.discover u) h
      rcases hfe : f s.vis (DfsEvent.discover u) with ⟨w, c⟩
      rw [hfe] at hP
      cases c
      · simp only [hd, if_false, hfe]
        exact dfsFinish_vis f P hf u _
          (dfsEdges_vis f (dfsNode g f n) P hf (fun v s hs => ih v s hs) u _ _ hP)
      · simp only [hd, if_false, hfe]
        exact dfsFinish_vis f P hf u _ hP

theorem depthFirstSearch_vis {σ : Type} (g : AGraph)
    (f : σ → DfsEvent → σ × DfsControl) (P : σ → Prop)
    (hf : ∀ s e, P s → P (f s e).1) (starts : List Nat) (init : σ)
    (h : P init) : P (depthFirstSearch g starts f init) := by
  unfold depthFirstSearch
  have aux : ∀ (l : List Nat) (s : DfsState σ), P s.vis →
      P ((l.foldl (fun s u => dfsNode g f (dfsFuel g) u s) s).vis) := by
    intro l
    induction l with
    | nil => intro s hs; simpa using hs
    | cons a rest ih =>
      intro s hs
      exact ih _ (dfsNode_vis g f P hf (dfsFuel g) a s hs)
  exact aux starts ⟨init, [], []⟩ h

/-!
### The reachability builder never records a root as a target
-/

theorem mem_setInsert {l : List (Nat × Nat)} {x y : Nat × Nat}
    (h : y ∈ setInsert l x) : y ∈ l ∨ y = x := by
  unfold setInsert at h
  split at h
  · exact Or.inl h
  · rcases List.mem_append.1 h with h' | h'
    · exact Or.inl h'
    · exact Or.inr (List.mem_singleton.1 h')

theorem stage2_targets_not_root (g : AGraph) (roots : List (Nat × Nat × Nat))
    (tau2 : List (Nat × Nat × Nat) → List (Nat × Nat × Nat)) :
    ∀ p ∈ stage2 g roots tau2, rootsLookup roots p.2 = none := by
  unfold stage2
  generalize tau2 roots = l
  have hstep : ∀ (root : Nat) (acc : List (Nat × Nat)) (ev : DfsEvent),
      (∀ p ∈ acc, rootsLookup roots p.2 = none) →
      ∀ p ∈ (step2Visit roots root acc ev).1, rootsLookup roots p.2 = none := by
    intro root acc ev hacc
    cases ev with
    | discover n =>
      by_cases hn : n = root
      · simpa [step2Visit, hn] using hacc
      · by_cases hr : (rootsLookup roots n).isSome
        · simpa [step2Visit, hn, hr] using hacc
        · intro p hp
          have hmem : p ∈ setInsert acc (root, n) := by
            simpa [step2Visit, hn, hr] using hp
          rcases mem_setInsert hmem with h' | h'
          · exact hacc p h'
          · subst h'
            exact Option.not_isSome_iff_eq_none.1 hr
    | treeEdge u v => simpa [step2Visit] using fun p hp => hacc p hp
    | backEdge u v => simpa [step2Visit] using fun p hp => hacc p hp
    | crossForwardEdge u v => simpa [step2Visit] using fun p hp => hacc p hp
    | finish n => simpa [step2Visit] using fun p hp => hacc p hp
  have aux : ∀ (l : List (Nat × Nat × Nat)) (acc : List (Nat × Nat)),
      (∀ p ∈ acc, rootsLookup roots p.2 = none) →
      ∀ p ∈ l.foldl
        (fun acc q => depthFirstSearch g [q.1] (step2Visit roots q.1) acc) acc,
        rootsLookup roots p.2 = none := by
    intro l
    induction l with
    | nil => intro acc hacc; simpa using hacc
    | cons q rest ih =>
      intro acc hacc
      exact ih _ (depthFirstSearch_vis g (step2Visit roots q.1)
        (fun acc => ∀ p ∈ acc, rootsLookup roots p.2 = none)
        (fun s e hs => hstep q.1 s e hs) [q.1] acc hacc)
  exact aux l [] (by simp)

theorem reachableIncoming_eq_nil {pairs : List (Nat × Nat)} {a : Nat}
    (h : ∀ p ∈ pairs, p.2 ≠ a) : reachableIncoming pairs a = [] := by
  unfold reachableIncoming
  have : pairs.filter (fun p => p.2 == a) = [] :=
    List.filter_eq_nil_iff.2 (fun p hp => by simpa using h p hp)
  simp [this]

/-- C10.  The reachability builder records `(r, n)` only for non-root `n`
(the visitor prunes at roots before recording), so every bundle root has an
empty incoming-neighbour list in the reachability graph, and the placer's
root branch leaves the bundle-graph edges untouched: it only registers the
singleton key of the root in `bundles` and adds no edge.  Consequently the only
bundle-graph edges ever created are the type-change edges of step 1 and the
edges of the non-root branch of the placer. -/
theorem c10_root_branch_adds_no_edges (g : AGraph)
    (roots : List (Nat × Nat × Nat))
    (tau2 : List (Nat × Nat × Nat) → List (Nat × Nat × Nat))
    (sigma : List (Nat × Nat) → List (Nat × Nat))
    (hsig : ∀ l, (sigma l).Perm l) (rb : List (Nat × Nat)) (a bid gid : Nat)
    (hroot : rootsLookup roots a = some (bid, gid)) :
    (∀ p ∈ stage2 g roots tau2, rootsLookup roots p.2 = none) ∧
    survivingReachable rb (sigma (stage2 g roots tau2)) a = [] ∧
    (∀ st : S3, step3Asset g roots rb (sigma (stage2 g roots tau2)) st a =
      some { st with bundles := bundlesInsertIfAbsent st.bundles [a] bid }) := by
  have h2 := stage2_targets_not_root g roots tau2
  have hnil : reachableIncoming (sigma (stage2 g roots tau2)) a = [] := by
    apply reachableIncoming_eq_nil
    intro p hp he
    have hp' : p ∈ stage2 g roots tau2 := (hsig _).mem_iff.1 hp
    have := h2 p hp'
    rw [he] at this
    rw [this] at hroot
    exact Option.noConfusion hroot
  have hsurv : survivingReachable rb (sigma (stage2 g roots tau2)) a = [] := by
    unfold survivingReachable
    rw [hnil]
    simp
  refine ⟨h2, hsurv, ?_⟩
  intro st
  unfold step3Asset
  rw [hsurv, hroot]
  simp [step3RootEdges]

/-- C10 witness: the general theorem applied to the step-1 roots of `exC7` and
the entry 0, at the empty placement state. -/
theorem c10_root_branch_adds_no_edges_witness :
    step3Asset exC7 [(0, 0, 0), (1, 1, 1)] []
      (stage2 exC7 [(0, 0, 0), (1, 1, 1)] id) ⟨[], ⟨[], []⟩⟩ 0 =
      some ⟨bundlesInsertIfAbsent [] [0] 0, ⟨[], []⟩⟩ := by
  have h := (c10_root_branch_adds_no_edges exC7 [(0, 0, 0), (1, 1, 1)] id id
    (fun l => List.Perm.refl l) [] 0 0 0 (by decide)).2.2 ⟨[], ⟨[], []⟩⟩
  simpa using h

/-!
### Step 1 creates at most one edge per (source, target) pair
-/

theorem step1TreeEdge_edges_ok {g : AGraph} {st st' : S1} {u v : Nat}
    (h : step1TreeEdge g st u v = some st') (hok : EdgeTargetsOk st) :
    EdgeTargetsOk st' := by
  unfold step1TreeEdge at h
  cases hgu : g.nodes.get? u with
  | none => rw [hgu] at h; exact absurd h (by simp)
  | some au =>
  cases hgv : g.nodes.get? v with
  | none => rw [hgu, hgv] at h; exact absurd h (by simp)
  | some av =>
  rw [hgu, hgv] at h
  simp only [Option.bind_eq_bind, Option.some_bind] at h
  rcases hok with ⟨hnd, hbd⟩
  by_cases hty : au.asset_type ≠ av.asset_type
  · rw [if_pos hty] at h
    cases hstk : st.stack with
    | nil => rw [hstk] at h; exact absurd h (by simp)
    | cons top rest =>
      rw [hstk] at h
      rcases top with ⟨x, bundle_group_id⟩
      simp only [BGraph.addNode, BGraph.addEdge] at h
      split at h
      next hlt =>
        simp only [Option.bind_eq_bind, Option.some_bind, Option.some.injEq] at h
        subst h
        constructor
        · simp only [List.map_append]
          rw [List.nodup_append]
          refine ⟨hnd, by simp, ?_⟩
          intro y hy hmem
          rcases List.mem_map.1 hy with ⟨e, he, hye⟩
          have := hbd e he
          simp only [List.map_cons, List.map_nil, List.mem_singleton] at hmem
          omega
        · intro e he
          simp only [List.length_append, List.length_singleton]
          rcases List.mem_append.1 he with he' | he'
          · have := hbd e he'
            omega
          · simp only [List.mem_singleton] at he'
            subst he'
            simp
      next hlt =>
        exact absurd h (by simp)
  · rw [if_neg hty] at h
    cases hfe : g.findEdge u v with
    | none => rw [hfe] at h; exact absurd h (by simp)
    | some dep =>
    rw [hfe] at h
    simp only [Option.bind_eq_bind, Option.some_bind] at h
    by_cases hasync : dep.is_async = true
    · rw [if_pos hasync] at h
      simp only [BGraph.addNode] at h
      cases hws : walkStack g av.asset_type v st.stack st.reachable_bundles with
      | none => rw [hws] at h; exact absurd h (by simp)
      | some rb' =>
        rw [hws] at h
        simp only [Option.some_bind, Option.some.injEq] at h
        subst h
        refine ⟨hnd, ?_⟩
        intro e he
        have := hbd e he
        simp only [List.length_append, List.length_singleton]
        omega
    · rw [if_neg hasync] at h
      cases h
      exact ⟨hnd, hbd⟩

theorem step1Visit_edges_ok (g : AGraph) (o : Option S1) (ev : DfsEvent)
    (hok : ∀ st, o = some st → EdgeTargetsOk st) :
    ∀ st', (step1Visit g o ev).1 = some st' → EdgeTargetsOk st' := by
  intro st' h
  cases o with
  | none => simp [step1Visit] at h
  | some st =>
  have hst := hok st rfl
  cases ev with
  | discover a =>
    cases hr : rootsLookup st.bundle_roots a with
    | none =>
      simp only [step1Visit, hr] at h
      cases h
      exact hst
    | some p =>
      rcases p with ⟨b, gid⟩
      simp only [step1Visit, hr] at h
      cases h
      exact hst
  | treeEdge u v =>
    simp only [step1Visit] at h
    exact step1TreeEdge_edges_ok h hst
  | backEdge u v => simp only [step1Visit] at h; cases h; exact hst
  | crossForwardEdge u v => simp only [step1Visit] at h; cases h; exact hst
  | finish n =>
    cases hstk : st.stack with
    | nil => simp only [step1Visit, hstk] at h; cases h; exact hst
    | cons top rest =>
      rcases top with ⟨s, gid⟩
      by_cases hsn : s = n
      · simp only [step1Visit, hstk, hsn, if_pos rfl] at h
        cases h
        exact hst
      · simp only [step1Visit, hstk, if_neg hsn] at h
        cases h
        exact hst

theorem initEntries_edges_ok (g : AGraph) :
    ∀ (l : List Nat) (st st' : S1), initEntries g l st = some st' →
      EdgeTargetsOk st → EdgeTargetsOk st' := by
  intro l
  induction l with
  | nil => intro st st' h hok; cases h; exact hok
  | cons e rest ih =>
    intro st st' h hok
    unfold initEntries at h
    cases hge : g.nodes.get? e with
    | none => rw [hge] at h; exact absurd h (by simp)
    | some a =>
      rw [hge] at h
      simp only [Option.bind_eq_bind, Option.some_bind, BGraph.addNode] at h
      refine ih _ _ h ?_
      rcases hok with ⟨hnd, hbd⟩
      refine ⟨hnd, ?_⟩
      intro e' he'
      have := hbd e' he'
      simp only [List.length_append, List.length_singleton]
      omega

theorem stage1_edge_targets_ok {g : AGraph} {entries : List Nat} {s1 : S1}
    (h : stage1 g entries = some s1) : EdgeTargetsOk s1 := by
  unfold stage1 at h
  cases hie : initEntries g entries ⟨[], [], ⟨[], []⟩, []⟩ with
  | none => rw [hie] at h; exact absurd h (by simp)
  | some st0 =>
    rw [hie] at h
    simp only [Option.bind_eq_bind, Option.some_bind] at h
    have h0 : EdgeTargetsOk st0 :=
      initEntries_edges_ok g entries _ st0 hie (by constructor <;> simp)
    have := depthFirstSearch_vis g (step1Visit g)
      (fun o => ∀ st, o = some st → EdgeTargetsOk st)
      (fun s e hs => step1Visit_edges_ok g s e hs) entries (some st0)
      (fun st hst => by cases hst; exact h0)
    exact this s1 h

theorem count_pair_le_count_snd (s t : Nat) :
    ∀ l : List (Nat × Nat), l.count (s, t) ≤ (l.map Prod.snd).count t := by
  intro l
  induction l with
  | nil => simp
  | cons p rest ih =>
    rcases p with ⟨ps, pt⟩
    simp only [List.count_cons, List.map_cons]
    by_cases hpt : pt = t
    · subst hpt
      by_cases hps : ps = s
      · subst hps
        simp only [beq_self_eq_true, if_true]
        omega
      · have h1 : (((ps, pt) : Nat × Nat) == (s, pt)) = false := by
          simp [hps]
        simp [h1]
        omega
    · have h1 : (((ps, pt) : Nat × Nat) == (s, t)) = false := by
        simp [hpt]
      have h2 : (pt == t) = false := by simp [hpt]
      simp [h1, h2]
      omega

/-- C7 amended.  Through the end of step 1 the bundle graph carries at most
one edge per ordered (source, target) pair — every step-1 edge targets its
freshly created bundle node — but the bundle placer (§4.3) adds one edge
per placed asset and reachable root, so duplicate parallel edges appear as
soon as a shared bundle receives its second asset (witnessed on `exC7`). -/
theorem c7_amended (g : AGraph) (entries : List Nat) (s1 : S1)
    (h : stage1 g entries = some s1) (s t : Nat) :
    s1.bundle_graph.edges.count (s, t) ≤ 1 ∧
    (runPlacer exC7 [0, 1] id id).map
      (fun m => m.s3.bundle_graph.edges.count (0, 2)) = some 2 := by
  refine ⟨?_, by decide⟩
  have hok := stage1_edge_targets_ok h
  calc s1.bundle_graph.edges.count (s, t)
      ≤ (s1.bundle_graph.edges.map Prod.snd).count t :=
        count_pair_le_count_snd s t _
    _ ≤ 1 := List.nodup_iff_count_le_one.1 hok.1 t

/-!
### The async branch of the root selector
-/

theorem walkStack_spec (g : AGraph) (t : AssetType) (v : Nat) :
    ∀ (stack rb : List (Nat × Nat)),
      (∀ p ∈ stack, (g.nodes.get? p.1).isSome) →
      walkStack g t v stack rb = some
        ((stack.takeWhile
            (fun p => (g.nodes.get? p.1).map Asset.asset_type == some t)).foldl
          (fun acc p => setInsert acc (p.1, v)) rb) := by
  intro stack
  induction stack with
  | nil => intro rb _; simp [walkStack]
  | cons p rest ih =>
    intro rb hv
    rcases p with ⟨b, gid⟩
    have hb : (g.nodes.get? b).isSome := hv (b, gid) (by simp)
    cases hget : g.nodes.get? b with
    | none => rw [hget] at hb; simp at hb
    | some a =>
      unfold walkStack
      rw [hget]
      simp only [Option.bind_eq_bind, Option.some_bind]
      have hget' : g.nodes[b]? = some a := by
        simpa [List.get?_eq_getElem?] using hget
      by_cases hty : a.asset_type ≠ t
      · rw [if_pos hty]
        simp [List.takeWhile_cons, hget', hty]
      · rw [if_neg hty]
        push_neg at hty
        rw [ih (setInsert rb (b, v)) (fun q hq => hv q (by simp [hq]))]
        simp [List.takeWhile_cons, hget', hty]

/-- C5.  On a tree edge `u → v` with equal asset types and an async
dependency, the root selector registers `v` as a new root whose bundle and
bundle group are one fresh bundle (`bundle_id = bundle_group_id`), and
`reachable_bundles` receives exactly the pairs `(b, v)` for the maximal top
segment of the group stack whose entries have the asset type of `v`, stopping
at (and excluding) the first stack entry of a different type; the stack
itself is unchanged. -/
theorem c5_async_edge_creates_group (g : AGraph) (st : S1) (u v : Nat)
    (au av : Asset) (dep : AEdge)
    (hu : g.nodes.get? u = some au) (hv : g.nodes.get? v = some av)
    (hty : au.asset_type = av.asset_type)
    (hdep : g.findEdge u v = some dep) (hasync : dep.is_async = true)
    (hstack : ∀ p ∈ st.stack, (g.nodes.get? p.1).isSome) :
    step1TreeEdge g st u v = some
      { st with
        bundle_graph := (st.bundle_graph.addNode (Bundle.from_asset v av)).2,
        bundle_roots := rootsInsert st.bundle_roots v
          (st.bundle_graph.nodes.length, st.bundle_graph.nodes.length),
        reachable_bundles :=
          (st.stack.takeWhile
              (fun p => (g.nodes.get? p.1).map Asset.asset_type ==
                some av.asset_type)).foldl
            (fun acc p => setInsert acc (p.1, v)) st.reachable_bundles } := by
  unfold step1TreeEdge
  rw [hu, hv]
  simp only [Option.bind_eq_bind, Option.some_bind]
  rw [if_neg (by simp [hty])]
  rw [hdep]
  simp only [Option.some_bind]
  rw [if_pos hasync]
  rw [walkStack_spec g av.asset_type v st.stack st.reachable_bundles hstack]
  simp [BGraph.addNode]

/-- C5 witness: the handler applied to the async edge of `exC4` from the
state the DFS reaches just after discovering the entry. -/
theorem c5_async_edge_creates_group_witness :
    step1TreeEdge exC4 ⟨[(0, 0, 0)], [], ⟨[⟨[0], 10, []⟩], []⟩, [(0, 0)]⟩ 0 1 =
      some ⟨[(0, 0, 0), (1, 1, 1)], [(0, 1)],
            ⟨[⟨[0], 10, []⟩, ⟨[1], 10, []⟩], []⟩, [(0, 0)]⟩ := by
  have h := c5_async_edge_creates_group exC4
    ⟨[(0, 0, 0)], [], ⟨[⟨[0], 10, []⟩], []⟩, [(0, 0)]⟩ 0 1
    ⟨.javaScript, 10⟩ ⟨.javaScript, 10⟩ ⟨0, 1, true⟩
    (by decide) (by decide) rfl (by decide) rfl (by decide)
  exact h.trans (by decide)

/-!
### The minimum-size inliner
-/

theorem remove_bundle_inner (g : AGraph) (y : Nat) (ay : Asset)
    (hy : g.nodes.get? y = some ay) :
    ∀ (srcs : List Nat) (bg : BGraph), srcs.Nodup →
      (∀ s ∈ srcs, s < bg.nodes.length) →
      ∃ bg', (srcs.foldlM (fun bg source_id => do
          let b ← bg.getNode source_id
          let a ← g.nodes.get? y
          some (bg.setNode source_id
            { b with asset_ids := b.asset_ids ++ [y],
                     size := b.size + a.size })) bg) = some bg' ∧
        bg'.nodes.length = bg.nodes.length ∧
        bg'.edges = bg.edges ∧
        (∀ s ∈ srcs, ∀ cs, bg.getNode s = some cs →
          bg'.getNode s =
            some ⟨cs.asset_ids ++ [y], cs.size + ay.size, cs.source_bundles⟩) ∧
        (∀ i, i ∉ srcs → bg'.getNode i = bg.getNode i) := by
  intro srcs
  induction srcs with
  | nil =>
    intro bg _ _
    exact ⟨bg, by simp, rfl, rfl, by simp, fun i _ => rfl⟩
  | cons s rest ih =>
    intro bg hnd hlen
    have hslt : s < bg.nodes.length := hlen s (by simp)
    cases hcs : bg.getNode s with
    | none =>
      exfalso
      have := List.get?_eq_none.1 hcs
      omega
    | some cs =>
    have hnd' : rest.Nodup := (List.nodup_cons.1 hnd).2
    have hsnot : s ∉ rest := (List.nodup_cons.1 hnd).1
    set bg1 := bg.setNode s ⟨cs.asset_ids ++ [y], cs.size + ay.size,
      cs.source_bundles⟩ with hbg1
    have hlen1 : ∀ t ∈ rest, t < bg1.nodes.length := by
      intro t ht
      have := hlen t (by simp [ht])
      simpa [hbg1, BGraph.setNode] using this
    rcases ih bg1 hnd' hlen1 with ⟨bg', hfold, hl, he, hupd, hkeep⟩
    refine ⟨bg', ?_, ?_, ?_, ?_, ?_⟩
    · simp only [List.foldlM_cons]
      rw [hcs]
      simp only [Option.bind_eq_bind, Option.some_bind]
      nth_rewrite 1 [hy]
      simp only [Option.some_bind]
      exact hfold
    · rw [hl]
      simp [hbg1, BGraph.setNode]
    · rw [he]
      simp [hbg1, BGraph.setNode]
    · intro t ht ct hct
      rcases List.mem_cons.1 ht with rfl | htr
      · have hct' : ct = cs := by
          rw [hct] at hcs
          exact (Option.some.injEq _ _ ▸ hcs).symm ▸ rfl
        subst hct'
        rw [hkeep t hsnot]
        simp only [hbg1, BGraph.getNode, BGraph.setNode]
        exact List.get?_set_eq_of_lt _ hslt
      · have hts : t ≠ s := fun hts => hsnot (hts ▸ htr)
        apply hupd t htr
        simp only [hbg1, BGraph.getNode, BGraph.setNode]
        rw [List.get?_set_ne _ _ (fun hsi => hts hsi.symm)]
        exact hct
    · intro i hi
      have hir : i ∉ rest := fun h => hi (by simp [h])
      have his : i ≠ s := fun h => hi (by simp [h])
      rw [hkeep i hir]
      simp only [hbg1, BGraph.getNode, BGraph.setNode]
      exact List.get?_set_ne _ _ (fun hsi => his hsi.symm)

theorem remove_bundle_outer (g : AGraph) (srcs : List Nat) (hnd : srcs.Nodup) :
    ∀ (assets : List Nat) (bg : BGraph),
      (∀ a ∈ assets, (g.nodes.get? a).isSome) →
      (∀ s ∈ srcs, s < bg.nodes.length) →
      ∃ bg', (assets.foldlM (fun bg asset_id =>
          srcs.foldlM (fun bg source_id => do
            let b ← bg.getNode source_id
            let a ← g.nodes.get? asset_id
            some (bg.setNode source_id
              { b with asset_ids := b.asset_ids ++ [asset_id],
                       size := b.size + a.size })) bg) bg) = some bg' ∧
        bg'.nodes.length = bg.nodes.length ∧
        (∀ s ∈ srcs, ∀ cs, bg.getNode s = some cs →
          ∃ sz, bg'.getNode s =
            some ⟨cs.asset_ids ++ assets, sz, cs.source_bundles⟩) ∧
        (∀ i, i ∉ srcs → bg'.getNode i = bg.getNode i) := by
  intro assets
  induction assets with
  | nil =>
    intro bg _ _
    refine ⟨bg, by simp, rfl, ?_, fun i _ => rfl⟩
    intro s _ cs hcs
    exact ⟨cs.size, by simpa using hcs⟩
  | cons y rest ih =>
    intro bg hval hlen
    have hy : (g.nodes.get? y).isSome := hval y (by simp)
    cases hgy : g.nodes.get? y with
    | none => rw [hgy] at hy; simp at hy
    | some ay =>
    rcases remove_bundle_inner g y ay hgy srcs bg hnd hlen with
      ⟨bg1, hin, hl1, _, hupd1, hkeep1⟩
    have hval' : ∀ a ∈ rest, (g.nodes.get? a).isSome :=
      fun a ha => hval a (by simp [ha])
    have hlen1 : ∀ s ∈ srcs, s < bg1.nodes.length := by
      intro s hs
      rw [hl1]
      exact hlen s hs
    rcases ih bg1 hval' hlen1 with ⟨bg', hfold, hl, hupd, hkeep⟩
    refine ⟨bg', ?_, ?_, ?_, ?_⟩
    · rw [List.foldlM_cons, hin]
      simpa using hfold
    · rw [hl, hl1]
    · intro s hs cs hcs
      have h1 := hupd1 s hs cs hcs
      rcases hupd s hs _ h1 with ⟨sz, hsz⟩
      refine ⟨sz, ?_⟩
      rw [hsz]
      simp
    · intro i hi
      rw [hkeep i hi, hkeep1 i hi]

theorem remove_bundle_spec (g : AGraph) (bg : BGraph) (i : Nat) (b : Bundle)
    (hb : bg.getNode i = some b) (hnd : b.source_bundles.Nodup)
    (hs : ∀ s ∈ b.source_bundles, s ≠ i ∧ s + 1 < bg.nodes.length)
    (ha : ∀ a ∈ b.asset_ids, (g.nodes.get? a).isSome) :
    ∃ bg', remove_bundle g bg i = some bg' ∧
      bg'.nodes.length + 1 = bg.nodes.length ∧
      (∀ s bs, s ∈ b.source_bundles → bg.getNode s = some bs →
        ∃ sz, bg'.getNode s =
          some ⟨bs.asset_ids ++ b.asset_ids, sz, bs.source_bundles⟩) := by
  have hilt : i < bg.nodes.length := by
    rcases List.get?_eq_some.1 hb with ⟨h, _⟩
    exact h
  have hrn : bg.removeNode i = some (b, ⟨(bg.nodes.set i
      (bg.nodes.getLast?.getD b)).dropLast,
      (bg.edges.filter (fun e => !(e.1 == i) && !(e.2 == i))).map (fun e =>
        (if e.1 = bg.nodes.length - 1 then i else e.1,
         if e.2 = bg.nodes.length - 1 then i else e.2))⟩) := by
    unfold BGraph.removeNode
    rw [show bg.nodes.get? i = some b from hb]
  set bg1 : BGraph := ⟨(bg.nodes.set i (bg.nodes.getLast?.getD b)).dropLast,
      (bg.edges.filter (fun e => !(e.1 == i) && !(e.2 == i))).map (fun e =>
        (if e.1 = bg.nodes.length - 1 then i else e.1,
         if e.2 = bg.nodes.length - 1 then i else e.2))⟩ with hbg1
  have hlen1 : bg1.nodes.length = bg.nodes.length - 1 := by
    simp [hbg1]
  have hget1 : ∀ s, s ≠ i → s + 1 < bg.nodes.length →
      bg1.getNode s = bg.getNode s := by
    intro s hsi hslt
    simp only [hbg1, BGraph.getNode]
    rw [List.dropLast_eq_take]
    rw [List.get?_take (by simp [List.length_set]; omega)]
    exact List.get?_set_ne _ _ (fun h => hsi h.symm)
  have hsrcs : ∀ s ∈ b.source_bundles, s < bg1.nodes.length := by
    intro s hsmem
    rcases hs s hsmem with ⟨_, hlt⟩
    omega
  rcases remove_bundle_outer g b.source_bundles hnd b.asset_ids bg1 ha hsrcs
    with ⟨bg', hfold, hl, hupd, _⟩
  refine ⟨bg', ?_, ?_, ?_⟩
  · unfold remove_bundle
    rw [hrn]
    simpa [hbg1] using hfold
  · rw [hl, hlen1]
    omega
  · intro s bs hsmem hbs
    rcases hs s hsmem with ⟨hsi, hslt⟩
    exact hupd s hsmem bs ((hget1 s hsi hslt).trans hbs)

/-- C6.  The step-4 loop body removes a bundle exactly when its
`source_bundles` list is non-empty and its size is strictly below
`min_bundle_size`, in which case each of its assets is appended to every
one of its source bundles; and on the concrete two-entry scenario the
undersized shared asset 2 ends up duplicated into both entry bundles after
§4.4. -/
theorem c6_min_size_inliner (g : AGraph) (bg bg' : BGraph) (i : Nat)
    (b : Bundle) (hb : bg.getNode i = some b)
    (hstep : step4Bundle g bg i = some bg')
    (hnd : b.source_bundles.Nodup)
    (hs : ∀ s ∈ b.source_bundles, s ≠ i ∧ s + 1 < bg.nodes.length)
    (ha : ∀ a ∈ b.asset_ids, (g.nodes.get? a).isSome) :
    ((bg'.nodes.length < bg.nodes.length) ↔
      (b.source_bundles ≠ [] ∧ b.size < min_bundle_size)) ∧
    (b.source_bundles ≠ [] ∧ b.size < min_bundle_size →
      ∀ s bs, s ∈ b.source_bundles → bg.getNode s = some bs →
        ∃ sz, bg'.getNode s =
          some ⟨bs.asset_ids ++ b.asset_ids, sz, bs.source_bundles⟩) ∧
    (runInliner exC6 [0, 1] id id).map
      (fun out => out.nodes.map Bundle.asset_ids) = some [[0, 2], [1, 2]] := by
  unfold step4Bundle at hstep
  rw [hb] at hstep
  simp only [Option.bind_eq_bind, Option.some_bind] at hstep
  by_cases hcond : b.source_bundles.length > 0 ∧ b.size < min_bundle_size
  · rw [if_pos hcond] at hstep
    rcases remove_bundle_spec g bg i b hb hnd hs ha with ⟨bg'', hrem, hlen, hupd⟩
    have hbg : bg'' = bg' := by
      rw [hrem] at hstep
      exact Option.some.inj hstep
    subst hbg
    refine ⟨?_, ?_, by decide⟩
    · constructor
      · intro _
        exact ⟨List.length_pos.1 hcond.1, hcond.2⟩
      · intro _
        omega
    · intro _ s bs hsmem hbs
      exact hupd s bs hsmem hbs
  · rw [if_neg hcond] at hstep
    have hbg : bg = bg' := Option.some.inj hstep
    subst hbg
    refine ⟨?_, ?_, by decide⟩
    · constructor
      · intro hlt
        omega
      · intro hc
        exact absurd ⟨List.length_pos.2 hc.1, hc.2⟩ hcond
    · intro hc
      exact absurd ⟨List.length_pos.2 hc.1, hc.2⟩ hcond

/-- C6 witness: the general theorem applied to the concrete step-3 bundle
graph of `exC6`, showing the shared asset 2 appended to the bundle of entry 1. -/
theorem c6_min_size_inliner_witness :
    ∃ sz, (⟨[⟨[0, 2], 15, []⟩, ⟨[1, 2], 15, []⟩], []⟩ : BGraph).getNode 1 =
      some ⟨[1] ++ [2], sz, []⟩ := by
  have h := (c6_min_size_inliner exC6
    ⟨[⟨[0], 10, []⟩, ⟨[1], 10, []⟩, ⟨[2], 5, [1, 0]⟩], [(1, 2), (0, 2)]⟩
    ⟨[⟨[0, 2], 15, []⟩, ⟨[1, 2], 15, []⟩], []⟩ 2 ⟨[2], 5, [1, 0]⟩
    (by decide) (by decide) (by decide) (by decide) (by decide)).2.1
    (by decide) 1 ⟨[1], 10, []⟩ (by decide) (by decide)
  simpa using h

/-!
### Occurrence accounting for the bundle placer
-/

theorem sum_map_set (f : Bundle → Nat) :
    ∀ (l : List Bundle) (i : Nat) (b b' : Bundle), l.get? i = some b →
      ((l.set i b').map f).sum + f b = (l.map f).sum + f b' := by
  intro l
  induction l with
  | nil => intro i b b' h; simp at h
  | cons c rest ih =>
    intro i b b' h
    cases i with
    | zero =>
      simp only [List.get?] at h
      cases h
      simp only [List.set_cons_zero, List.map_cons, List.sum_cons]
      omega
    | succ n =>
      simp only [List.get?] at h
      have := ih n b b' h
      simp only [List.set_cons_succ, List.map_cons, List.sum_cons]
      omega

theorem occCount_addNode (bg : BGraph) (b : Bundle) (x : Nat) :
    occCount (bg.addNode b).2 x = occCount bg x + b.asset_ids.count x := by
  simp [occCount, BGraph.addNode]

theorem occCount_setNode_append (bg : BGraph) (i : Nat) (b : Bundle)
    (hb : bg.getNode i = some b) (ids' : List Nat) (sz : Nat)
    (src : List Nat) (x : Nat) :
    occCount (bg.setNode i ⟨b.asset_ids ++ ids', sz, src⟩) x =
      occCount bg x + ids'.count x := by
  have h := sum_map_set (fun bb => bb.asset_ids.count x) bg.nodes i b
    ⟨b.asset_ids ++ ids', sz, src⟩ hb
  simp only [List.count_append] at h
  simp only [occCount, BGraph.setNode]
  omega

theorem rootsLookup_cons (pk : Nat) (pv : Nat × Nat)
    (rest : List (Nat × Nat × Nat)) (q : Nat) :
    rootsLookup ((pk, pv) :: rest) q =
      if pk = q then some pv else rootsLookup rest q := by
  by_cases h : pk = q
  · subst h
    unfold rootsLookup
    rw [List.find?_cons_of_pos _ (by simp)]
    simp
  · unfold rootsLookup
    rw [List.find?_cons_of_neg _ (by simp [h])]
    rw [if_neg h]

theorem rootsLookup_rootsInsert (k : Nat) (v : Nat × Nat) :
    ∀ (m : List (Nat × Nat × Nat)) (q : Nat),
      rootsLookup (rootsInsert m k v) q =
        if q = k then some v else rootsLookup m q := by
  intro m
  induction m with
  | nil =>
    intro q
    unfold rootsInsert
    rw [rootsLookup_cons]
    by_cases hq : q = k
    · subst hq
      rw [if_pos rfl]
    · rw [if_neg (fun h => hq h.symm), if_neg hq]
  | cons p rest ih =>
    intro q
    rcases p with ⟨pk, pv⟩
    by_cases hpk : pk = k
    · subst hpk
      unfold rootsInsert
      rw [if_pos rfl, rootsLookup_cons, rootsLookup_cons]
      by_cases hq : pk = q
      · subst hq
        simp
      · rw [if_neg hq, if_neg hq, if_neg (fun h => hq h.symm)]
    · unfold rootsInsert
      rw [if_neg hpk, rootsLookup_cons, rootsLookup_cons]
      by_cases hq : pk = q
      · rw [if_pos hq, if_pos hq,
          if_neg (fun h : q = k => hpk (hq.trans h))]
      · rw [if_neg hq, if_neg hq, ih q]

theorem step1TreeEdge_occ_ok {g : AGraph} {st st' : S1} {u v : Nat}
    (h : step1TreeEdge g st u v = some st') (hok : RootOccOk st) :
    RootOccOk st' := by
  unfold step1TreeEdge at h
  cases hgu : g.nodes.get? u with
  | none => rw [hgu] at h; exact absurd h (by simp)
  | some au =>
  cases hgv : g.nodes.get? v with
  | none => rw [hgu, hgv] at h; exact absurd h (by simp)
  | some av =>
  rw [hgu, hgv] at h
  simp only [Option.bind_eq_bind, Option.some_bind] at h
  rcases hok with ⟨hocc1, hocc0⟩
  by_cases hty : au.asset_type ≠ av.asset_type
  · rw [if_pos hty] at h
    cases hstk : st.stack with
    | nil => rw [hstk] at h; exact absurd h (by simp)
    | cons top rest =>
      rw [hstk] at h
      rcases top with ⟨x, bundle_group_id⟩
      simp only [BGraph.addNode, BGraph.addEdge] at h
      split at h
      next hlt =>
        simp only [Option.bind_eq_bind, Option.some_bind,
          Option.some.injEq] at h
        subst h
        have hocc : ∀ y, occCount
            (⟨st.bundle_graph.nodes ++ [Bundle.from_asset v av],
              st.bundle_graph.edges ++
                [(bundle_group_id, st.bundle_graph.nodes.length)]⟩ : BGraph) y =
            occCount st.bundle_graph y + List.count y [v] := by
          intro y
          simp [occCount, Bundle.from_asset]
        constructor
        · intro a p hp
          simp only at hp
          rw [rootsLookup_rootsInsert] at hp
          rw [hocc a]
          by_cases hav : a = v
          · subst hav
            simp [List.count_cons]
          · rw [if_neg hav] at hp
            have := hocc1 a p hp
            omega
        · intro a hp
          simp only at hp
          rw [rootsLookup_rootsInsert] at hp
          by_cases hav : a = v
          · rw [if_pos hav] at hp
            exact absurd hp (by simp)
          · rw [if_neg hav] at hp
            rw [hocc a]
            have := hocc0 a hp
            have hc : List.count a [v] = 0 :=
              List.count_eq_zero_of_not_mem (by simp [hav])
            omega
      next hlt => exact absurd h (by simp)
  · rw [if_neg hty] at h
    cases hfe : g.findEdge u v with
    | none => rw [hfe] at h; exact absurd h (by simp)
    | some dep =>
    rw [hfe] at h
    simp only [Option.bind_eq_bind, Option.some_bind] at h
    by_cases hasync : dep.is_async = true
    · rw [if_pos hasync] at h
      simp only [BGraph.addNode] at h
      cases hws : walkStack g av.asset_type v st.stack st.reachable_bundles with
      | none => rw [hws] at h; exact absurd h (by simp)
      | some rb' =>
        rw [hws] at h
        simp only [Option.some_bind, Option.some.injEq] at h
        subst h
        have hocc : ∀ y, occCount
            (⟨st.bundle_graph.nodes ++ [Bundle.from_asset v av],
              st.bundle_graph.edges⟩ : BGraph) y =
            occCount st.bundle_graph y + List.count y [v] := by
          intro y
          simp [occCount, Bundle.from_asset]
        constructor
        · intro a p hp
          simp only at hp
          rw [rootsLookup_rootsInsert] at hp
          rw [hocc a]
          by_cases hav : a = v
          · subst hav
            simp [List.count_cons]
          · rw [if_neg hav] at hp
            have := hocc1 a p hp
            omega
        · intro a hp
          simp only at hp
          rw [rootsLookup_rootsInsert] at hp
          by_cases hav : a = v
          · rw [if_pos hav] at hp
            exact absurd hp (by simp)
          · rw [if_neg hav] at hp
            rw [hocc a]
            have := hocc0 a hp
            have hc : List.count a [v] = 0 :=
              List.count_eq_zero_of_not_mem (by simp [hav])
            omega
    · rw [if_neg hasync] at h
      cases h
      exact ⟨hocc1, hocc0⟩

theorem step1Visit_occ_ok (g : AGraph) (o : Option S1) (ev : DfsEvent)
    (hok : ∀ st, o = some st → RootOccOk st) :
    ∀ st', (step1Visit g o ev).1 = some st' → RootOccOk st' := by
  intro st' h
  cases o with
  | none => simp [step1Visit] at h
  | some st =>
  have hst := hok st rfl
  cases ev with
  | discover a =>
    cases hr : rootsLookup st.bundle_roots a with
    | none =>
      simp only [step1Visit, hr] at h
      cases h
      exact hst
    | some p =>
      rcases p with ⟨b, gid⟩
      simp only [step1Visit, hr] at h
      cases h
      exact hst
  | treeEdge u v =>
    simp only [step1Visit] at h
    exact step1TreeEdge_occ_ok h hst
  | backEdge u v => simp only [step1Visit] at h; cases h; exact hst
  | crossForwardEdge u v => simp only [step1Visit] at h; cases h; exact hst
  | finish n =>
    cases hstk : st.stack with
    | nil => simp only [step1Visit, hstk] at h; cases h; exact hst
    | cons top rest =>
      rcases top with ⟨s, gid⟩
      by_cases hsn : s = n
      · simp only [step1Visit, hstk, hsn, if_pos rfl] at h
        cases h
        exact hst
      · simp only [step1Visit, hstk, if_neg hsn] at h
        cases h
        exact hst

theorem initEntries_occ_ok (g : AGraph) :
    ∀ (l : List Nat) (st st' : S1), initEntries g l st = some st' →
      RootOccOk st → RootOccOk st' := by
  intro l
  induction l with
  | nil => intro st st' h hok; cases h; exact hok
  | cons e rest ih =>
    intro st st' h hok
    unfold initEntries at h
    cases hge : g.nodes.get? e with
    | none => rw [hge] at h; exact absurd h (by simp)
    | some a =>
      rw [hge] at h
      simp only [Option.bind_eq_bind, Option.some_bind, BGraph.addNode] at h
      refine ih _ _ h ?_
      rcases hok with ⟨hocc1, hocc0⟩
      have hocc : ∀ y, occCount
          (⟨st.bundle_graph.nodes ++ [Bundle.from_asset e a],
            st.bundle_graph.edges⟩ : BGraph) y =
          occCount st.bundle_graph y + List.count y [e] := by
        intro y
        simp [occCount, Bundle.from_asset]
      constructor
      · intro b p hp
        simp only at hp
        rw [rootsLookup_rootsInsert] at hp
        rw [hocc b]
        by_cases hbe : b = e
        · subst hbe
          simp [List.count_cons]
        · rw [if_neg hbe] at hp
          have := hocc1 b p hp
          omega
      · intro b hp
        simp only at hp
        rw [rootsLookup_rootsInsert] at hp
        by_cases hbe : b = e
        · rw [if_pos hbe] at hp
          exact absurd hp (by simp)
        · rw [if_neg hbe] at hp
          rw [hocc b]
          have := hocc0 b hp
          have hc : List.count b [e] = 0 :=
            List.count_eq_zero_of_not_mem (by simp [hbe])
          omega

theorem stage1_occ_ok {g : AGraph} {entries : List Nat} {s1 : S1}
    (h : stage1 g entries = some s1) : RootOccOk s1 := by
  unfold stage1 at h
  cases hie : initEntries g entries ⟨[], [], ⟨[], []⟩, []⟩ with
  | none => rw [hie] at h; exact absurd h (by simp)
  | some st0 =>
    rw [hie] at h
    simp only [Option.bind_eq_bind, Option.some_bind] at h
    have h0 : RootOccOk st0 := by
      refine initEntries_occ_ok g entries _ st0 hie ⟨?_, ?_⟩
      · intro a p hp
        simp [rootsLookup] at hp
      · intro a _
        simp [occCount]
    have := depthFirstSearch_vis g (step1Visit g)
      (fun o => ∀ st, o = some st → RootOccOk st)
      (fun s e hs => step1Visit_occ_ok g s e hs) entries (some st0)
      (fun st hst => by cases hst; exact h0)
    exact this s1 h

theorem step3RootEdges_nodes (roots : List (Nat × Nat × Nat)) (aid bid : Nat) :
    ∀ (reachable : List Nat) (st st' : S3),
      step3RootEdges roots reachable aid bid st = some st' →
      st'.bundle_graph.nodes = st.bundle_graph.nodes ∧
        st'.bundles = st.bundles := by
  intro reachable
  induction reachable with
  | nil =>
    intro st st' h
    simp only [step3RootEdges, List.foldlM_nil] at h
    cases h
    exact ⟨rfl, rfl⟩
  | cons a rest ih =>
    intro st st' h
    simp only [step3RootEdges, List.foldlM_cons] at h
    by_cases ha : a ≠ aid
    · rw [if_pos ha] at h
      cases hla : rootsLookup roots a with
      | none => rw [hla] at h; exact absurd h (by simp)
      | some p =>
        rcases p with ⟨b0, gid⟩
        rw [hla] at h
        simp only [Option.bind_eq_bind, Option.some_bind, BGraph.addEdge] at h
        split at h
        next hlt =>
          simp only [Option.some_bind] at h
          exact ih ⟨st.bundles, ⟨st.bundle_graph.nodes,
            st.bundle_graph.edges ++ [(gid, bid)]⟩⟩ _ h
        next hlt => exact absurd h (by simp)
    · rw [if_neg ha] at h
      simp only [Option.bind_eq_bind, Option.some_bind] at h
      exact ih _ _ h

theorem step3SharedEdges_nodes (roots : List (Nat × Nat × Nat)) (bid : Nat) :
    ∀ (reachable : List Nat) (st st' : S3),
      step3SharedEdges roots reachable bid st = some st' →
      st'.bundle_graph.nodes = st.bundle_graph.nodes := by
  intro reachable
  induction reachable with
  | nil =>
    intro st st' h
    simp only [step3SharedEdges, List.foldlM_nil] at h
    cases h
    rfl
  | cons a rest ih =>
    intro st st' h
    simp only [step3SharedEdges, List.foldlM_cons] at h
    by_cases ha : a ≠ bid
    · rw [if_pos ha] at h
      cases hla : rootsLookup roots a with
      | none => rw [hla] at h; exact absurd h (by simp)
      | some p =>
        rcases p with ⟨b0, gid⟩
        rw [hla] at h
        simp only [Option.bind_eq_bind, Option.some_bind, BGraph.addEdge] at h
        split at h
        next hlt =>
          simp only [Option.some_bind] at h
          exact ih ⟨st.bundles, ⟨st.bundle_graph.nodes,
            st.bundle_graph.edges ++ [(gid, bid)]⟩⟩ _ h
        next hlt => exact absurd h (by simp)
    · rw [if_neg ha] at h
      simp only [Option.bind_eq_bind, Option.some_bind] at h
      exact ih _ _ h

theorem step3Asset_occCount (g : AGraph) (roots : List (Nat × Nat × Nat))
    (rb pairs : List (Nat × Nat)) (st st' : S3) (a : Nat)
    (h : step3Asset g roots rb pairs st a = some st') (x : Nat) :
    occCount st'.bundle_graph x = occCount st.bundle_graph x +
      (if x = a ∧ rootsLookup roots a = none ∧
          survivingReachable rb pairs a ≠ [] then 1 else 0) := by
  simp only [step3Asset] at h
  cases hla : rootsLookup roots a with
  | some p =>
    rcases p with ⟨bid, gid⟩
    rw [hla] at h
    simp only [] at h
    have hn := (step3RootEdges_nodes roots a bid _ _ _ h).1
    have heq : occCount st'.bundle_graph x = occCount st.bundle_graph x := by
      unfold occCount
      rw [hn]
    rw [heq, if_neg (fun hc => by simpa using hc.2.1)]
    omega
  | none =>
    rw [hla] at h
    simp only [] at h
    by_cases hlen : (survivingReachable rb pairs a).length > 0
    · rw [if_pos hlen] at h
      have hsne : survivingReachable rb pairs a ≠ [] := by
        intro hnil
        rw [hnil] at hlen
        simp at hlen
      have harith : ∀ bgmid : BGraph,
          occCount bgmid x = occCount st.bundle_graph x + List.count x [a] →
          occCount bgmid x = occCount st.bundle_graph x +
            (if x = a ∧ (none : Option (Nat × Nat)) = none ∧
              survivingReachable rb pairs a ≠ [] then 1 else 0) := by
        intro bgmid hmid
        rw [hmid]
        by_cases hx : x = a
        · subst hx
          rw [if_pos ⟨rfl, rfl, hsne⟩]
          simp
        · rw [if_neg (fun hc => hx hc.1)]
          have : List.count x [a] = 0 :=
            List.count_eq_zero_of_not_mem (by simp [hx])
          omega
      cases hmm : (survivingReachable rb pairs a).mapM
          (fun q => bundlesLookup st.bundles [q]) with
      | none => rw [hmm] at h; exact absurd h (by simp)
      | some srcs =>
      rw [hmm] at h
      simp only [Option.bind_eq_bind, Option.some_bind] at h
      cases hbl : bundlesLookup st.bundles (survivingReachable rb pairs a) with
      | some b0 =>
        rw [hbl] at h
        simp only [] at h
        cases hget : st.bundle_graph.getNode b0 with
        | none => rw [hget] at h; exact absurd h (by simp)
        | some bb =>
        rw [hget] at h
        simp only [Option.bind_eq_bind, Option.some_bind] at h
        cases hga : g.nodes.get? a with
        | none => rw [hga] at h; exact absurd h (by simp)
        | some aa =>
        rw [hga] at h
        simp only [Option.some_bind] at h
        have hn := step3SharedEdges_nodes roots b0 _ _ _ h
        have heq : occCount st'.bundle_graph x = occCount
            (st.bundle_graph.setNode b0
              ⟨bb.asset_ids ++ [a], bb.size + aa.size, bb.source_bundles⟩)
            x := by
          unfold occCount
          rw [hn]
        refine harith st'.bundle_graph ?_
        rw [heq, occCount_setNode_append st.bundle_graph b0 bb hget [a] _ _ x]
      | none =>
        rw [hbl] at h
        simp only [BGraph.addNode] at h
        cases hget : (⟨st.bundle_graph.nodes ++
            [{ Bundle.default with source_bundles := srcs }],
            st.bundle_graph.edges⟩ : BGraph).getNode
            st.bundle_graph.nodes.length with
        | none =>
          exfalso
          have h2 : (⟨st.bundle_graph.nodes ++
              [{ Bundle.default with source_bundles := srcs }],
              st.bundle_graph.edges⟩ : BGraph).getNode
              st.bundle_graph.nodes.length =
              some { Bundle.default with source_bundles := srcs } := by
            simp only [BGraph.getNode]
            exact List.get?_concat_length _ _
          rw [hget] at h2
          exact Option.noConfusion h2
        | some bb =>
        rw [hget] at h
        simp only [Option.bind_eq_bind, Option.some_bind] at h
        cases hga : g.nodes.get? a with
        | none => rw [hga] at h; exact absurd h (by simp)
        | some aa =>
        rw [hga] at h
        simp only [Option.some_bind] at h
        have hbb : bb = { Bundle.default with source_bundles := srcs } := by
          have h2 : (⟨st.bundle_graph.nodes ++
              [{ Bundle.default with source_bundles := srcs }],
              st.bundle_graph.edges⟩ : BGraph).getNode
              st.bundle_graph.nodes.length =
              some { Bundle.default with source_bundles := srcs } := by
            simp only [BGraph.getNode]
            exact List.get?_concat_length _ _
          exact Option.some.inj (hget.symm.trans h2)
        have hn := step3SharedEdges_nodes roots st.bundle_graph.nodes.length
          _ _ _ h
        have heq : occCount st'.bundle_graph x = occCount
            ((⟨st.bundle_graph.nodes ++
              [{ Bundle.default with source_bundles := srcs }],
              st.bundle_graph.edges⟩ : BGraph).setNode
                st.bundle_graph.nodes.length
              ⟨bb.asset_ids ++ [a], bb.size + aa.size, bb.source_bundles⟩)
            x := by
          unfold occCount
          rw [hn]
        refine harith st'.bundle_graph ?_
        rw [heq, occCount_setNode_append _ _ bb hget [a] _ _ x]
        subst hbb
        simp [occCount, Bundle.default]
    · rw [if_neg hlen] at h
      cases h
      have hsurv : survivingReachable rb pairs a = [] := by
        cases hsv : survivingReachable rb pairs a with
        | nil => rfl
        | cons y ys => rw [hsv] at hlen; simp at hlen
      rw [if_neg (fun hc => hc.2.2 hsurv)]
      omega

theorem stage3_fold_occCount (g : AGraph) (roots : List (Nat × Nat × Nat))
    (rb pairs : List (Nat × Nat)) :
    ∀ (l : List Nat) (st st' : S3),
      l.foldlM (step3Asset g roots rb pairs) st = some st' →
      ∀ x, occCount st'.bundle_graph x = occCount st.bundle_graph x +
        (if rootsLookup roots x = none ∧ survivingReachable rb pairs x ≠ []
          then l.count x else 0) := by
  intro l
  induction l with
  | nil =>
    intro st st' h x
    cases h
    simp
  | cons a rest ih =>
    intro st st' h x
    rw [List.foldlM_cons] at h
    cases hst1 : step3Asset g roots rb pairs st a with
    | none => rw [hst1] at h; exact absurd h (by simp)
    | some st1 =>
    rw [hst1] at h
    simp only [Option.bind_eq_bind, Option.some_bind] at h
    have h1 := step3Asset_occCount g roots rb pairs st st1 a hst1 x
    have h2 := ih st1 st' h x
    rw [h2, h1]
    have hcc : List.count x (a :: rest) =
        List.count x rest + (if x = a then 1 else 0) := by
      by_cases hx : x = a
      · subst hx
        simp [List.count_cons]
      · simp [List.count_cons, hx, Ne.symm hx]
    rw [hcc]
    by_cases hq : rootsLookup roots x = none ∧
        survivingReachable rb pairs x ≠ []
    · rw [if_pos hq, if_pos hq]
      by_cases hx : x = a
      · have hA : x = a ∧ rootsLookup roots a = none ∧
            survivingReachable rb pairs a ≠ [] :=
          ⟨hx, by rw [← hx]; exact hq.1, by rw [← hx]; exact hq.2⟩
        rw [if_pos hx, if_pos hA]
        omega
      · rw [if_neg hx, if_neg (fun hc => hx hc.1)]
        omega
    · rw [if_neg hq, if_neg hq]
      by_cases hx : x = a
      · rw [if_neg (fun hc : x = a ∧ rootsLookup roots a = none ∧
            survivingReachable rb pairs a ≠ [] =>
          hq ⟨by rw [hx]; exact hc.2.1, by rw [hx]; exact hc.2.2⟩)]
      · rw [if_neg (fun hc => hx hc.1)]

/-- C2 amended.  Whenever the bundle placer (steps 1–3) completes: every
registered bundle root appears in at least one bundle; a non-root asset
whose surviving reachable-root list is non-empty appears in exactly one
bundle; and a non-root asset with an empty surviving list (for instance an
asset unreachable from every root) appears in no bundle. -/
theorem c2_amended (g : AGraph) (entries : List Nat)
    (tau2 : List (Nat × Nat × Nat) → List (Nat × Nat × Nat))
    (sigma : List (Nat × Nat) → List (Nat × Nat)) (m : PipeMid)
    (h : runPlacer g entries tau2 sigma = some m) :
    (∀ a p, rootsLookup m.s1.bundle_roots a = some p →
      1 ≤ occCount m.s3.bundle_graph a) ∧
    (∀ a, a < g.nodes.length → rootsLookup m.s1.bundle_roots a = none →
      occCount m.s3.bundle_graph a =
        if survivingReachable m.s1.reachable_bundles m.pairs a = [] then 0
        else 1) := by
  unfold runPlacer at h
  cases hs1 : stage1 g entries with
  | none => rw [hs1] at h; exact absurd h (by simp)
  | some s1 =>
  rw [hs1] at h
  simp only [Option.bind_eq_bind, Option.some_bind] at h
  cases hs3 : stage3 g s1.bundle_roots s1.reachable_bundles
      (sigma (stage2 g s1.bundle_roots tau2)) s1.bundle_graph with
  | none => rw [hs3] at h; exact absurd h (by simp)
  | some s3 =>
  rw [hs3] at h
  simp only [Option.some_bind, Option.some.injEq] at h
  subst h
  have hocc := stage1_occ_ok hs1
  have hfold := stage3_fold_occCount g s1.bundle_roots s1.reachable_bundles
    (sigma (stage2 g s1.bundle_roots tau2)) (List.range g.nodes.length)
    ⟨[], s1.bundle_graph⟩ s3 hs3
  constructor
  · intro a p hp
    have h1 := hocc.1 a p hp
    have h2 := hfold a
    simp only at h2
    rw [h2, if_neg (fun hc => by rw [hp] at hc; exact Option.noConfusion hc.1)]
    simpa using h1
  · intro a ha hnone
    have h0 := hocc.2 a hnone
    have h2 := hfold a
    simp only at h2
    rw [h2]
    have hcnt : (List.range g.nodes.length).count a = 1 :=
      List.count_eq_one_of_mem (List.nodup_range g.nodes.length)
        (List.mem_range.2 ha)
    by_cases hsv : survivingReachable s1.reachable_bundles
        (sigma (stage2 g s1.bundle_roots tau2)) a = []
    · rw [if_pos hsv, if_neg (fun hc => hc.2 hsv)]
      simpa using h0
    · rw [if_neg hsv, if_pos ⟨hnone, hsv⟩, hcnt]
      simp only [occCount, List.map_nil, List.sum_nil] at h0 ⊢
      omega

/-- C2 amended witness: the entry 0 of `exC2` is a registered root and
appears in at least one bundle of the placer output. -/
theorem c2_amended_witness :
    runPlacer exC2 [0] id id =
      some ⟨⟨[(0, 0, 0)], [], ⟨[⟨[0], 10, []⟩], []⟩, []⟩, [],
            ⟨[([0], 0)], ⟨[⟨[0], 10, []⟩], []⟩⟩⟩ ∧
    1 ≤ occCount (⟨[⟨[0], 10, []⟩], []⟩ : BGraph) 0 := by
  refine ⟨by decide, ?_⟩
  exact (c2_amended exC2 [0] id id
    ⟨⟨[(0, 0, 0)], [], ⟨[⟨[0], 10, []⟩], []⟩, []⟩, [],
      ⟨[([0], 0)], ⟨[⟨[0], 10, []⟩], []⟩⟩⟩ (by decide)).1 0 (0, 0) (by decide)

/-!
### The async boundary behaviour under every hash-iteration order
-/

theorem perm_pair_cases {α : Type} {a b : α} {l : List α}
    (h : l.Perm [a, b]) : l = [a, b] ∨ l = [b, a] := by
  have hlen : l.length = 2 := by simpa using h.length_eq
  rcases l with _ | ⟨x, _ | ⟨y, _ | ⟨z, t⟩⟩⟩ <;> simp at hlen
  by_cases hxa : x = a
  · subst hxa
    left
    have hyb := List.perm_singleton.1 h.cons_inv
    rw [hyb]
  · have hx : x ∈ [a, b] := h.mem_iff.1 (by simp)
    have hxb : x = b := by
      rcases List.mem_cons.1 hx with h' | h'
      · exact absurd h' hxa
      · simpa using h'
    have hya : y = a := by
      have ha : a ∈ [x, y] := h.mem_iff.2 (by simp)
      rcases List.mem_cons.1 ha with h' | h'
      · exact absurd h'.symm hxa
      · exact (List.mem_singleton.1 h').symm
    right
    rw [hxb, hya]

/-- C4 amended.  On a single entry with one async dependency of the same
type, under every `HashMap`/`HashSet` iteration order the pipeline yields
exactly two single-asset bundles and an *empty* edge list: the async
target bundle is not an out-neighbor of the entry bundle (no step adds
an edge into an async bundle group); the connection is recorded in
`reachable_bundles` as the pair (entry, async target) instead. -/
theorem c4_amended
    (tau2 : List (Nat × Nat × Nat) → List (Nat × Nat × Nat))
    (sigma : List (Nat × Nat) → List (Nat × Nat))
    (tau5 : List (Nat × Nat × Nat) → List (Nat × Nat × Nat))
    (h2 : (tau2 [(0, 0, 0), (1, 1, 1)]).Perm [(0, 0, 0), (1, 1, 1)])
    (hsig : (sigma []).Perm [])
    (h5 : (tau5 [(0, 0, 0), (1, 1, 1)]).Perm [(0, 0, 0), (1, 1, 1)]) :
    bundle exC4 [0] tau2 sigma tau5 =
      some ⟨[⟨[0], 10, []⟩, ⟨[1], 10, []⟩], []⟩ ∧
    (stage1 exC4 [0]).map S1.reachable_bundles = some [(0, 1)] := by
  refine ⟨?_, by decide⟩
  have hs1 : stage1 exC4 [0] = some (⟨[(0, 0, 0), (1, 1, 1)], [(0, 1)],
      ⟨[⟨[0], 10, []⟩, ⟨[1], 10, []⟩], []⟩, []⟩ : S1) := by decide
  have hst2 : stage2 exC4 [(0, 0, 0), (1, 1, 1)] tau2 = [] := by
    unfold stage2
    rcases perm_pair_cases h2 with hc | hc <;> rw [hc] <;> decide
  have hsigeq : sigma (stage2 exC4 [(0, 0, 0), (1, 1, 1)] tau2) = [] := by
    rw [hst2]
    exact List.perm_nil.1 hsig
  have hs3 : stage3 exC4 [(0, 0, 0), (1, 1, 1)] [(0, 1)] []
      ⟨[⟨[0], 10, []⟩, ⟨[1], 10, []⟩], []⟩ =
      some ⟨[([0], 0), ([1], 1)], ⟨[⟨[0], 10, []⟩, ⟨[1], 10, []⟩], []⟩⟩ := by
    decide
  have hs4 : stage4 exC4 ⟨[⟨[0], 10, []⟩, ⟨[1], 10, []⟩], []⟩ =
      some ⟨[⟨[0], 10, []⟩, ⟨[1], 10, []⟩], []⟩ := by decide
  have hs5 : stage5 exC4 [(0, 0, 0), (1, 1, 1)] [([0], 0), ([1], 1)]
      ⟨[⟨[0], 10, []⟩, ⟨[1], 10, []⟩], []⟩ tau5 =
      some ⟨[⟨[0], 10, []⟩, ⟨[1], 10, []⟩], []⟩ := by
    unfold stage5
    rcases perm_pair_cases h5 with hc | hc <;> rw [hc] <;> decide
  unfold bundle runPlacer
  rw [hs1]
  simp only [Option.bind_eq_bind, Option.some_bind]
  rw [hsigeq, hs3]
  simp only [Option.some_bind]
  rw [hs4]
  simp only [Option.some_bind]
  exact hs5

/-- C4 amended witness: the canonical iteration order. -/
theorem c4_amended_witness :
    bundle exC4 [0] id id id =
      some ⟨[⟨[0], 10, []⟩, ⟨[1], 10, []⟩], []⟩ :=
  (c4_amended id id id (List.Perm.refl _) (List.Perm.refl _)
    (List.Perm.refl _)).1

/-- C7 amended witness: applied to the concrete step-1 state of `exC7`. -/
theorem c7_amended_witness :
    stage1 exC7 [0, 1] =
      some ⟨[(0, 0, 0), (1, 1, 1)], [],
            ⟨[⟨[0], 10, []⟩, ⟨[1], 10, []⟩], []⟩, []⟩ ∧
    (⟨[(0, 0, 0), (1, 1, 1)], [],
      ⟨[⟨[0], 10, []⟩, ⟨[1], 10, []⟩], []⟩, []⟩ : S1).bundle_graph.edges.count
        (0, 1) ≤ 1 := by
  refine ⟨by decide, ?_⟩
  exact (c7_amended exC7 [0, 1] _ (by decide) 0 1).1

end Bundler
